import Mathlib

/-!
Verification of the ami-camera-utils timestamp-correction and
interval-sampling pipeline (`photo_renamer.py` and `photo_sampler.py`).

Modelling conventions.

Timestamps (Python `datetime.datetime` values) are embedded as integers
counting seconds on the proleptic Gregorian timeline, with 0 at
1970-01-01T00:00:00; `datetime` plus `timedelta` arithmetic is exact
second arithmetic on that timeline.  Civil (year, month, day) conversion
uses the standard days-from-civil / civil-from-days algorithms.  Int `/`
and `%` in this toolchain are Euclidean division, which agrees with floor
division for the positive constant divisors used here.

Filesystem paths are embedded as a list of directory components plus a
final file name, and the filesystem itself as the list of file paths that
currently exist.  Code that can raise is embedded with `Except` or
`Option`, and the unbounded `while` loop of the sampler with an explicit
fuel parameter, `none` meaning the loop did not finish within the fuel.
-/

namespace AmiCam

/-- Seconds represented by `datetime.timedelta(days=days, hours=hours, minutes=minutes)`. -/
def timedeltaSecs (days hours minutes : Int) : Int :=
  days * 86400 + hours * 3600 + minutes * 60

/-- Embedding of `apply_date_offset` (textually identical in
`photo_renamer.py` and `photo_sampler.py`): `None` propagates, otherwise
the duration is added exactly. -/
def apply_date_offset (dt : Option Int) (days hours minutes : Int) : Option Int :=
  match dt with
  | none => none
  | some t => some (t + timedeltaSecs days hours minutes)

/-- Civil date (year, month, day) of a day count relative to 1970-01-01,
on the proleptic Gregorian calendar (standard civil-from-days algorithm;
all divisors are positive so `/` and `%` are floor division here). -/
def civilFromDays (z0 : Int) : Int × Int × Int :=
  let z := z0 + 719468
  let era := z / 146097
  let doe := z - era * 146097
  let yoe := (doe - doe / 1460 + doe / 36524 - doe / 146096) / 365
  let y := yoe + era * 400
  let doy := doe - (365 * yoe + yoe / 4 - yoe / 100)
  let mp := (5 * doy + 2) / 153
  let d := doy - (153 * mp + 2) / 5 + 1
  let m := mp + (if mp < 10 then 3 else -9)
  (y + (if m ≤ 2 then 1 else 0), m, d)

/-- Day count relative to 1970-01-01 of a civil date (standard
days-from-civil algorithm). -/
def daysFromCivil (y m d : Int) : Int :=
  let y2 := y - (if m ≤ 2 then 1 else 0)
  let era := y2 / 400
  let yoe := y2 - era * 400
  let mp := if m > 2 then m - 3 else m + 9
  let doy := (153 * mp + 2) / 5 + d - 1
  let doe := yoe * 365 + yoe / 4 - yoe / 100 + doy
  era * 146097 + doe - 719468

/-- The timestamp (seconds since the epoch) of a civil date and time of day. -/
def mkDT (y m d hh mi ss : Int) : Int :=
  daysFromCivil y m d * 86400 + hh * 3600 + mi * 60 + ss

/-- Earliest Python `datetime` value, `datetime.min` = 0001-01-01T00:00:00. -/
def datetimeMin : Int := mkDT 1 1 1 0 0 0

/-- Latest second-resolution Python `datetime` value, 9999-12-31T23:59:59. -/
def datetimeMax : Int := mkDT 9999 12 31 23 59 59

/-- Decimal digits, most significant first, computed with explicit fuel so
that the definition is structurally recursive. -/
def natDigitsFuel : Nat → Nat → List Char
  | 0, n => [Nat.digitChar n]
  | fuel + 1, n =>
    if n < 10 then [Nat.digitChar n]
    else natDigitsFuel fuel (n / 10) ++ [Nat.digitChar (n % 10)]

/-- Decimal digits of a natural number, most significant first
(`n` itself is always enough fuel). -/
def natDigits (n : Nat) : List Char :=
  natDigitsFuel n n

/-- Left-pad a digit list with zeros to the given width (the behaviour of
a zero-padded fixed-width conversion such as C `%04d`). -/
def zeroPad (w : Nat) (s : List Char) : List Char :=
  List.replicate (w - s.length) '0' ++ s

/-- A natural number rendered zero-padded to the given width. -/
def pad (w n : Nat) : List Char :=
  zeroPad w (natDigits n)

/-- Embedding of `timestamp.strftime("%Y%m%d%H%M%S")`: the 4-digit
zero-padded year followed by 2-digit zero-padded month, day, hour,
minute and second. -/
def strftimeYmdHMS (t : Int) : String :=
  let days := t / 86400
  let sod := (t % 86400).toNat
  let c := civilFromDays days
  String.mk (pad 4 c.1.toNat ++ pad 2 c.2.1.toNat ++ pad 2 c.2.2.toNat ++
    pad 2 (sod / 3600) ++ pad 2 (sod % 3600 / 60) ++ pad 2 (sod % 60))

/-- A filesystem path: directory components plus the final file name
(embedding of `pathlib.Path` as used by the scripts). -/
structure PyPath where
  dirs : List String
  name : String
deriving DecidableEq, Repr

/-- Lower-casing of a string (`str.lower()`), character by character. -/
def strToLower (s : String) : String :=
  String.mk (s.toList.map Char.toLower)

/-- Embedding of `pathlib.PurePath.suffix`: the part of the name from the
last dot on, or empty when there is no dot, the only dot is the leading
character, or the name ends in the dot. -/
def pathSuffix (name : String) : String :=
  let cs := name.toList
  let ext := (cs.reverse.takeWhile (fun c => c ≠ '.')).reverse
  if ext.length + 1 < cs.length ∧ ext ≠ [] then String.mk ('.' :: ext) else ""

/-- Embedding of `generate_new_filepath` from `photo_renamer.py`: build
`{pfx}-{YYYYMMDDHHMMSS}{lower-cased original extension}` in the output
directory when one is given, else alongside the original. -/
def generate_new_filepath (original_path : PyPath) (timestamp : Int)
    (pfx : String) (output_dir : Option (List String)) : PyPath :=
  let time_str := strftimeYmdHMS timestamp
  let extension := strToLower (pathSuffix original_path.name)
  let new_filename := pfx ++ "-" ++ time_str ++ extension
  match output_dir with
  | some d => ⟨d, new_filename⟩
  | none => ⟨original_path.dirs, new_filename⟩

/-- A selected sample: the dictionary
`{"original_path": ..., "timestamp": ..., "interval_start": ...}` built by
`process_images_for_sampling`. -/
structure Sample where
  original_path : PyPath
  timestamp : Int
  interval_start : Int
deriving DecidableEq, Repr

/-- Ordering of timestamped files used by
`timestamped_files.sort(key=lambda x: x[1])`. -/
def tsLE (a b : PyPath × Int) : Prop := a.2 ≤ b.2

instance : DecidableRel tsLE := fun a b => inferInstanceAs (Decidable (a.2 ≤ b.2))

instance : IsTotal (PyPath × Int) tsLE := ⟨fun a b => Int.le_total a.2 b.2⟩

instance : IsTrans (PyPath × Int) tsLE := ⟨fun _ _ _ => Int.le_trans⟩

/-- Stable ascending sort by timestamp (Python `list.sort` with a key is a
stable ascending sort; any stable sort gives the same list). -/
def sortByTs (l : List (PyPath × Int)) : List (PyPath × Int) :=
  l.insertionSort tsLE

/-- Embedding of the `while timestamp >= next_interval_start` advance loop
of `process_images_for_sampling`, with explicit fuel: each iteration does
`current = next; next = current + delta`; `none` means the loop did not
finish within the fuel. -/
def advanceLoop : Nat → Int → Int → Int → Int → Option (Int × Int)
  | 0, cur, next, ts, _ => if ts ≥ next then none else some (cur, next)
  | fuel + 1, cur, next, ts, delta =>
    if ts ≥ next then advanceLoop fuel next (next + delta) ts delta
    else some (cur, next)

/-- Embedding of the `for image_path, timestamp in timestamped_files` sweep
of `process_images_for_sampling`: a photo at or past the current window end
advances the window and is sampled; otherwise it is sampled only when no
sample has been taken yet (the very first interval). -/
def sweepLoop (fuel : Nat) (delta : Int) :
    List (PyPath × Int) → Int → Int → List Sample → Option (List Sample)
  | [], _, _, acc => some acc
  | (p, ts) :: rest, cur, next, acc =>
    if ts ≥ next then
      match advanceLoop fuel cur next ts delta with
      | none => none
      | some (cur2, next2) =>
        sweepLoop fuel delta rest cur2 next2 (acc ++ [⟨p, ts, cur2⟩])
    else if acc.isEmpty then
      sweepLoop fuel delta rest cur next (acc ++ [⟨p, ts, cur⟩])
    else
      sweepLoop fuel delta rest cur next acc

/-- The `(file_path, corrected timestamp)` pairs built by the first loop of
`process_images_for_sampling`: photos without an extracted timestamp are
skipped, the rest get the offset applied. -/
def corrected_files (photos : List (PyPath × Option Int))
    (days_offset hours_offset minutes_offset : Int) : List (PyPath × Int) :=
  photos.filterMap fun pe =>
    (apply_date_offset pe.2 days_offset hours_offset minutes_offset).map
      (fun t => (pe.1, t))

/-- Embedding of `process_images_for_sampling` from `photo_sampler.py`.
The input is the discovered photos paired with their extracted timestamp
(`none` = no EXIF datetime).  `interval_delta` is
`timedelta(minutes=interval_minutes)` in seconds.  The fuel bounds the
while loop; `none` means the loop did not terminate within the fuel. -/
def process_images_for_sampling (fuel : Nat) (photos : List (PyPath × Option Int))
    (interval_minutes days_offset hours_offset minutes_offset : Int) :
    Option (List Sample) :=
  let timestamped_files :=
    corrected_files photos days_offset hours_offset minutes_offset
  if timestamped_files.isEmpty then some []
  else
    let sorted := sortByTs timestamped_files
    let interval_delta := interval_minutes * 60
    match sorted with
    | [] => some []
    | (_, t0) :: _ =>
      sweepLoop fuel interval_delta sorted t0 (t0 + interval_delta) []

/-- The window index of a timestamp: which `[t0 + i*delta, t0 + (i+1)*delta)`
window it falls in (for timestamps at or after `t0` and positive `delta`). -/
def windowIdx (t0 delta ts : Int) : Int := (ts - t0) / delta

/-- Specification-level selector: keep each photo whose window index
differs from the previously kept photo's window index (`none` = nothing
kept yet).  The sweep of `process_images_for_sampling` is proved equal to
this on sorted input. -/
def selectSpec (t0 delta : Int) : Option Int → List (PyPath × Int) → List Sample
  | _, [] => []
  | w?, (p, ts) :: rest =>
    let w2 := windowIdx t0 delta ts
    if w? = some w2 then selectSpec t0 delta w? rest
    else ⟨p, ts, t0 + w2 * delta⟩ :: selectSpec t0 delta (some w2) rest

/-- The three EXIF tag names consulted, in priority order. -/
def exifTags : List String :=
  ["EXIF DateTimeOriginal", "EXIF DateTimeDigitized", "Image DateTime"]

/-- Leap year test of the Gregorian calendar. -/
def isLeap (y : Int) : Bool :=
  y % 4 = 0 && (y % 100 ≠ 0 || y % 400 = 0)

/-- Number of days in a month. -/
def daysInMonth (y m : Int) : Int :=
  if m = 2 then (if isLeap y then 29 else 28)
  else if m = 4 ∨ m = 6 ∨ m = 9 ∨ m = 11 then 30 else 31

/-- Numeric value of a decimal digit character. -/
def digitVal (c : Char) : Nat := c.toNat - '0'.toNat

/-- The whitespace class matched by `\s` in a compiled `strptime` pattern,
restricted to its ASCII members (a whitespace character in the format is
compiled to `\s+`); exotic Unicode whitespace is outside the model. -/
def isStrptimeWs (c : Char) : Bool :=
  c = ' ' || c = '\t' || c = '\n' || c = '\r' || c = '\x0b' || c = '\x0c'

/-- One numeric field of a compiled `strptime` pattern.  The patterns for
`%m %d %H %M %S` are alternations of a (possibly zero-padded) two-digit
form covering the values `[lo2, hi2]` and a bare one-digit form covering
`[lo1, 9]` (`1[0-2]|0[1-9]|[1-9]` for `%m`, `3[01]|[12]\d|0[1-9]|[1-9]`
for `%d`, `2[0-3]|[0-1]\d|\d` for `%H`, `[0-5]\d|\d` for `%M`,
`6[0-1]|[0-5]\d|\d` for `%S`).  The regex backtracking is deterministic
here because a digit can never match what follows a field (a colon,
whitespace, or the end of the anchored match), so two adjacent digits
commit to the two-digit form and its range check. -/
def parseField (lo2 hi2 lo1 : Nat) : List Char → Option (Nat × List Char)
  | [] => none
  | [d1] =>
    if d1.isDigit ∧ lo1 ≤ digitVal d1 then some (digitVal d1, []) else none
  | d1 :: d2 :: rest =>
    if d1.isDigit then
      if d2.isDigit then
        let v := 10 * digitVal d1 + digitVal d2
        if lo2 ≤ v ∧ v ≤ hi2 then some (v, rest) else none
      else if lo1 ≤ digitVal d1 then some (digitVal d1, d2 :: rest)
      else none
    else none

/-- The `%Y` pattern of a compiled `strptime` pattern: exactly four
digits. -/
def parseYear4 : List Char → Option (Nat × List Char)
  | y1 :: y2 :: y3 :: y4 :: rest =>
    if y1.isDigit ∧ y2.isDigit ∧ y3.isDigit ∧ y4.isDigit then
      some (1000 * digitVal y1 + 100 * digitVal y2 + 10 * digitVal y3 + digitVal y4,
        rest)
    else none
  | _ => none

/-- A literal `:` of the format. -/
def expectColon : List Char → Option (List Char)
  | ':' :: rest => some rest
  | _ => none

/-- The `\s+` a whitespace character of the format is compiled to: at
least one whitespace character, then any further ones. -/
def expectWs : List Char → Option (List Char)
  | [] => none
  | c :: rest =>
    if isStrptimeWs c then some (rest.dropWhile isStrptimeWs) else none

/-- Embedding of `datetime.datetime.strptime(s, "%Y:%m:%d %H:%M:%S")`:
the compiled pattern is matched against the whole string (anything left
over raises `unconverted data remains`), with un-padded one-digit month,
day, hour, minute and second accepted and the format's space matching one
or more whitespace characters; the parsed fields then go through the
`datetime` constructor, which raises for year 0, a day beyond the month's
length, and the leap seconds 60 and 61 the `%S` pattern admits.  `none`
models the raised `ValueError`. -/
def parseExifDatetime (s : String) : Option Int := do
  let (y, r1) ← parseYear4 s.toList
  let r2 ← expectColon r1
  let (mo, r3) ← parseField 1 12 1 r2
  let r4 ← expectColon r3
  let (d, r5) ← parseField 1 31 1 r4
  let r6 ← expectWs r5
  let (hh, r7) ← parseField 0 23 0 r6
  let r8 ← expectColon r7
  let (mi, r9) ← parseField 0 59 0 r8
  let r10 ← expectColon r9
  let (ss, r11) ← parseField 0 61 0 r10
  if r11 = [] then
    if 1 ≤ y ∧ (d : Int) ≤ daysInMonth (y : Int) (mo : Int) ∧ ss ≤ 59 then
      some (mkDT (y : Int) (mo : Int) (d : Int) (hh : Int) (mi : Int) (ss : Int))
    else none
  else none

/-- The tag-scanning loop body of `get_exif_datetime`: try the tag names in
order; a present tag is parsed immediately, and a parse failure raises
(`Except.error`), it does not fall through to the next tag. -/
def findDatetimeTag : List String → List (String × String) → Except Unit (Option Int)
  | [], _ => .ok none
  | tagName :: more, tags =>
    match tags.lookup tagName with
    | some v =>
      match parseExifDatetime v with
      | some dt => .ok (some dt)
      | none => .error ()
    | none => findDatetimeTag more tags

/-- Embedding of `get_exif_datetime` (textually identical in both
scripts).  The argument is the outcome of opening and reading the file's
EXIF tags: `none` = the read raised, `some tags` = the tag dictionary.
The enclosing `try`/`except` turns any raise into `None`. -/
def get_exif_datetime : Option (List (String × String)) → Option Int
  | none => none
  | some tags =>
    match findDatetimeTag exifTags tags with
    | .ok r => r
    | .error _ => none

/-- One entry of the `results` list built by `process_images` in
`photo_renamer.py`. -/
structure RenamePlan where
  original_path : PyPath
  exif_datetime : Int
  corrected_datetime : Int
  new_path : PyPath
  is_copy : Bool
deriving DecidableEq, Repr

/-- Effect of one successful transfer on the set of existing files:
`shutil.copy2` adds the destination, `Path.rename` also removes the
source. -/
def applyTransfer (fs : List PyPath) (p : RenamePlan) : List PyPath :=
  if p.is_copy then p.new_path :: fs else p.new_path :: fs.erase p.original_path

/-- Embedding of `process_files` from `photo_renamer.py`.  Each plan
carries a flag saying whether its filesystem operation raises (a raising
operation is modelled as leaving the filesystem unchanged).  Returns the
count of successfully processed plans and the final filesystem. -/
def process_files : List (RenamePlan × Bool) → List PyPath → Nat × List PyPath
  | [], fs => (0, fs)
  | (item, raises) :: rest, fs =>
    if item.new_path ∈ fs then process_files rest fs
    else if raises then process_files rest fs
    else
      let out := process_files rest (applyTransfer fs item)
      (out.1 + 1, out.2)

/-- The plans that succeed, computed alongside the evolving filesystem
exactly as `process_files` walks it. -/
def successfulPlans : List (RenamePlan × Bool) → List PyPath → List RenamePlan
  | [], _ => []
  | (item, raises) :: rest, fs =>
    if item.new_path ∈ fs then successfulPlans rest fs
    else if raises then successfulPlans rest fs
    else item :: successfulPlans rest (applyTransfer fs item)

/-- Embedding of `process_images` from `photo_renamer.py`: build one plan
per photo with an extracted timestamp; the destination is computed by
`generate_new_filepath` with the corrected timestamp. -/
def process_images (photos : List (PyPath × Option Int))
    (days_offset hours_offset minutes_offset : Int) (pfx : String)
    (output_dir : Option (List String)) : List RenamePlan :=
  photos.filterMap fun pe =>
    match pe.2 with
    | none => none
    | some exif_dt =>
      match apply_date_offset (some exif_dt) days_offset hours_offset minutes_offset with
      | none => none
      | some corrected_dt =>
        some { original_path := pe.1
               exif_datetime := exif_dt
               corrected_datetime := corrected_dt
               new_path := generate_new_filepath pe.1 corrected_dt pfx output_dir
               is_copy := output_dir.isSome }

/-- Pair each plan with its raise flag; plans beyond the flag list do not
raise. -/
def attachRaises : List RenamePlan → List Bool → List (RenamePlan × Bool)
  | [], _ => []
  | p :: ps, [] => (p, false) :: attachRaises ps []
  | p :: ps, e :: es => (p, e) :: attachRaises ps es

/-- Embedding of the `rename` command of `photo_renamer.py`: option
validation (`typer.Exit(1)` = result 1) happens before anything else; then
planning, the dry-run / empty / confirmation early returns (exit 0), and
finally the transfers.  Returns the process exit status and the final
filesystem. -/
def renameCommand (inplace : Bool) (output_dir : Option (List String))
    (days_offset hours_offset minutes_offset : Int) (pfx : String)
    (dry_run yes confirmed : Bool) (photos : List (PyPath × Option Int))
    (raises : List Bool) (fs : List PyPath) : Nat × List PyPath :=
  if ¬inplace ∧ output_dir.isNone then (1, fs)
  else if inplace ∧ output_dir.isSome then (1, fs)
  else
    let actual_output_dir := if inplace then none else output_dir
    let results :=
      process_images photos days_offset hours_offset minutes_offset pfx actual_output_dir
    if dry_run then (0, fs)
    else if results.isEmpty then (0, fs)
    else if ¬yes ∧ ¬confirmed then (0, fs)
    else (0, (process_files (attachRaises results raises) fs).2)

/-- Destination path computed by `copy_sampled_files` for one sample:
always `target_dir / original_path.name`, where `target_dir` keeps the
last source directory component when `preserve_structure` is set. -/
def sample_target_path (output_dir : List String) (preserve_structure : Bool)
    (orig : PyPath) : PyPath :=
  let target_dir :=
    if preserve_structure then
      match orig.dirs.getLast? with
      | some lastDir => output_dir ++ [lastDir]
      | none => output_dir
    else output_dir
  ⟨target_dir, orig.name⟩

/-- Embedding of `copy_sampled_files` from `photo_sampler.py`: for each
sample, skip when the target exists, otherwise copy (a raising copy is
caught and counted as no success).  Returns the copied count and the final
filesystem. -/
def copy_sampled_files (output_dir : List String) (preserve_structure : Bool) :
    List (Sample × Bool) → List PyPath → Nat × List PyPath
  | [], fs => (0, fs)
  | (item, raises) :: rest, fs =>
    let target_path := sample_target_path output_dir preserve_structure item.original_path
    if target_path ∈ fs then copy_sampled_files output_dir preserve_structure rest fs
    else if raises then copy_sampled_files output_dir preserve_structure rest fs
    else
      let out := copy_sampled_files output_dir preserve_structure rest (target_path :: fs)
      (out.1 + 1, out.2)

/-! Helper lemmas. -/

lemma digitChar_isDigit (n : Nat) (h : n < 10) : (Nat.digitChar n).isDigit = true := by
  interval_cases n <;> decide

lemma natDigitsFuel_length_le : ∀ fuel n k : Nat, n ≤ fuel → n < 10 ^ k → 1 ≤ k →
    (natDigitsFuel fuel n).length ≤ k := by
  intro fuel
  induction fuel with
  | zero => intro n k _ _ h1; simpa [natDigitsFuel] using h1
  | succ f ih =>
    intro n k hn hk h1
    by_cases h : n < 10
    · simpa [natDigitsFuel, h] using h1
    · have hk2 : 2 ≤ k := by
        rcases k with _ | _ | k
        · omega
        · norm_num at hk; omega
        · omega
      have hdiv : n / 10 < 10 ^ (k - 1) := by
        have hpow : (10 : Nat) ^ k = 10 ^ (k - 1) * 10 := by
          conv_lhs => rw [show k = (k - 1) + 1 by omega]
          rw [pow_succ]
        rw [Nat.div_lt_iff_lt_mul (by norm_num)]
        omega
      have hrec := ih (n / 10) (k - 1) (by omega) hdiv (by omega)
      simp only [natDigitsFuel, if_neg h, List.length_append, List.length_singleton]
      omega

lemma natDigitsFuel_mem_isDigit : ∀ fuel n : Nat, n ≤ fuel →
    ∀ c ∈ natDigitsFuel fuel n, c.isDigit = true := by
  intro fuel
  induction fuel with
  | zero =>
    intro n hn c hc
    have : n = 0 := by omega
    subst this
    simp [natDigitsFuel] at hc
    subst hc
    decide
  | succ f ih =>
    intro n hn c hc
    by_cases h : n < 10
    · simp [natDigitsFuel, h] at hc
      subst hc
      exact digitChar_isDigit n h
    · simp only [natDigitsFuel, if_neg h, List.mem_append, List.mem_singleton] at hc
      rcases hc with hc | hc
      · exact ih (n / 10) (by omega) c hc
      · subst hc
        exact digitChar_isDigit (n % 10) (by omega)

lemma pad_length (w n : Nat) (h : n < 10 ^ w) (hw : 1 ≤ w) : (pad w n).length = w := by
  have := natDigitsFuel_length_le n n w le_rfl h hw
  simp only [pad, zeroPad, natDigits, List.length_append, List.length_replicate]
  omega

lemma pad_isDigit (w n : Nat) : ∀ c ∈ pad w n, c.isDigit = true := by
  intro c hc
  simp only [pad, zeroPad, natDigits, List.mem_append] at hc
  rcases hc with hc | hc
  · have := List.eq_of_mem_replicate hc
    subst this
    decide
  · exact natDigitsFuel_mem_isDigit n n le_rfl c hc

lemma civilFromDays_bounds (z : Int) (h1 : -719162 ≤ z) (h2 : z ≤ 2932896) :
    1 ≤ (civilFromDays z).1 ∧ (civilFromDays z).1 ≤ 9999 ∧
    1 ≤ (civilFromDays z).2.1 ∧ (civilFromDays z).2.1 ≤ 12 ∧
    1 ≤ (civilFromDays z).2.2 ∧ (civilFromDays z).2.2 ≤ 31 := by
  simp only [civilFromDays]
  split_ifs <;> (constructor <;> [skip; constructor] <;> omega)

lemma strftimeYmdHMS_digits (t : Int) (h1 : datetimeMin ≤ t) (h2 : t ≤ datetimeMax) :
    (strftimeYmdHMS t).length = 14 ∧ ∀ c ∈ (strftimeYmdHMS t).toList, c.isDigit = true := by
  have hlo : (-719162 : Int) ≤ t / 86400 := by
    have : datetimeMin / 86400 ≤ t / 86400 := Int.ediv_le_ediv (by norm_num) h1
    simpa [datetimeMin, mkDT, daysFromCivil] using this
  have hhi : t / 86400 ≤ 2932896 := by
    have : t / 86400 ≤ datetimeMax / 86400 := Int.ediv_le_ediv (by norm_num) h2
    have hmax : datetimeMax / 86400 = 2932896 := by decide
    omega
  obtain ⟨hy1, hy2, hm1, hm2, hd1, hd2⟩ := civilFromDays_bounds (t / 86400) hlo hhi
  have hmod1 : 0 ≤ t % 86400 := Int.emod_nonneg t (by norm_num)
  have hmod2 : t % 86400 < 86400 := Int.emod_lt_of_pos t (by norm_num)
  have hsod : (t % 86400).toNat < 86400 := by omega
  have l1 : (pad 4 (civilFromDays (t / 86400)).1.toNat).length = 4 :=
    pad_length 4 _ (by simp; omega) (by norm_num)
  have l2 : (pad 2 (civilFromDays (t / 86400)).2.1.toNat).length = 2 :=
    pad_length 2 _ (by simp; omega) (by norm_num)
  have l3 : (pad 2 (civilFromDays (t / 86400)).2.2.toNat).length = 2 :=
    pad_length 2 _ (by simp; omega) (by norm_num)
  have l4 : (pad 2 ((t % 86400).toNat / 3600)).length = 2 :=
    pad_length 2 _ (by simp; omega) (by norm_num)
  have l5 : (pad 2 ((t % 86400).toNat % 3600 / 60)).length = 2 :=
    pad_length 2 _ (by simp; omega) (by norm_num)
  have l6 : (pad 2 ((t % 86400).toNat % 60)).length = 2 :=
    pad_length 2 _ (by simp; omega) (by norm_num)
  constructor
  · simp only [strftimeYmdHMS, String.length, String.toList]
    simp only [List.length_append, l1, l2, l3, l4, l5, l6]
  · intro c hc
    simp only [strftimeYmdHMS, String.toList] at hc
    simp only [List.mem_append] at hc
    rcases hc with ((((hc | hc) | hc) | hc) | hc) | hc <;> exact pad_isDigit _ _ c hc

/-- C7: applying a zero offset to a timestamp is the identity, offsets
compose additively for all signed day, hour and minute components, and the
exact duration arithmetic crosses month and year boundaries correctly
(illustrated at a year boundary and at leap and non-leap February ends). -/
theorem apply_date_offset_identity_and_composition :
    (∀ t : Int, apply_date_offset (some t) 0 0 0 = some t) ∧
    (∀ t d1 h1 m1 d2 h2 m2 : Int,
      apply_date_offset (apply_date_offset (some t) d1 h1 m1) d2 h2 m2 =
        apply_date_offset (some t) (d1 + d2) (h1 + h2) (m1 + m2)) ∧
    apply_date_offset (some (mkDT 2024 12 31 23 59 0)) 0 0 1 =
      some (mkDT 2025 1 1 0 0 0) ∧
    apply_date_offset (some (mkDT 2024 2 28 0 0 0)) 1 0 0 =
      some (mkDT 2024 2 29 0 0 0) ∧
    apply_date_offset (some (mkDT 2025 2 28 0 0 0)) 1 0 0 =
      some (mkDT 2025 3 1 0 0 0) := by
  refine ⟨?_, ?_, by decide, by decide, by decide⟩
  · intro t
    simp [apply_date_offset, timedeltaSecs]
  · intro t d1 h1 m1 d2 h2 m2
    simp only [apply_date_offset, timedeltaSecs, Option.some.injEq]
    ring

/-- C8: for every source path, prefix and timestamp (in the representable
`datetime` range), `generate_new_filepath` names the result exactly
`{pfx}-{14 digit YYYYMMDDHHMMSS}{lower-cased original extension}`, and
identical prefix, timestamp and extension always give the same file name
(wherever the file is placed). -/
theorem generate_new_filepath_canonical (original_path : PyPath) (pfx : String)
    (ts : Int) (output_dir : Option (List String))
    (hlo : datetimeMin ≤ ts) (hhi : ts ≤ datetimeMax) :
    (generate_new_filepath original_path ts pfx output_dir).name =
      pfx ++ "-" ++ strftimeYmdHMS ts ++ strToLower (pathSuffix original_path.name) ∧
    (strftimeYmdHMS ts).length = 14 ∧
    (∀ c ∈ (strftimeYmdHMS ts).toList, c.isDigit = true) ∧
    (∀ p2 : PyPath, pathSuffix p2.name = pathSuffix original_path.name →
      (generate_new_filepath p2 ts pfx output_dir).name =
        (generate_new_filepath original_path ts pfx output_dir).name) := by
  obtain ⟨hlen, hdig⟩ := strftimeYmdHMS_digits ts hlo hhi
  refine ⟨?_, hlen, hdig, ?_⟩
  · cases output_dir <;> rfl
  · intro p2 hsuf
    cases output_dir <;> simp [generate_new_filepath, hsuf]

/-- C8 witness: the documented example, prefix `entocamtest`, timestamp
2025-05-16T14:30:45, extension `.JPG`, placed alongside the source. -/
theorem generate_new_filepath_canonical_witness :
    datetimeMin ≤ mkDT 2025 5 16 14 30 45 ∧ mkDT 2025 5 16 14 30 45 ≤ datetimeMax ∧
    (generate_new_filepath ⟨["test", "dir"], "original.JPG"⟩ (mkDT 2025 5 16 14 30 45)
        "entocamtest" none).name = "entocamtest-20250516143045.jpg" ∧
    (strftimeYmdHMS (mkDT 2025 5 16 14 30 45)).length = 14 := by
  refine ⟨by decide, by decide, ?_, ?_⟩
  · have := generate_new_filepath_canonical ⟨["test", "dir"], "original.JPG"⟩
      "entocamtest" (mkDT 2025 5 16 14 30 45) none (by decide) (by decide)
    rw [this.1]
    decide
  · exact (generate_new_filepath_canonical ⟨["test", "dir"], "original.JPG"⟩
      "entocamtest" (mkDT 2025 5 16 14 30 45) none (by decide) (by decide)).2.1

lemma windowIdx_bracket (t0 delta ts : Int) (hd : 0 < delta) :
    t0 + windowIdx t0 delta ts * delta ≤ ts ∧
      ts < t0 + windowIdx t0 delta ts * delta + delta := by
  have h1 := Int.emod_add_ediv (ts - t0) delta
  have h2 := Int.emod_nonneg (ts - t0) (by omega : delta ≠ 0)
  have h3 := Int.emod_lt_of_pos (ts - t0) hd
  have hc : (ts - t0) / delta * delta = delta * ((ts - t0) / delta) := mul_comm _ _
  unfold windowIdx
  constructor <;> linarith [h1, h2, h3, hc]

lemma windowIdx_mono (t0 delta : Int) (hd : 0 < delta) {a b : Int} (h : a ≤ b) :
    windowIdx t0 delta a ≤ windowIdx t0 delta b :=
  Int.ediv_le_ediv hd (by omega)

lemma windowIdx_self_window (t0 delta : Int) (hd : 0 < delta) (k : Int) :
    windowIdx t0 delta (t0 + k * delta) = k := by
  unfold windowIdx
  rw [show t0 + k * delta - t0 = k * delta by ring]
  exact Int.mul_ediv_cancel k (by omega)

lemma windowIdx_ge_of_le (t0 delta ts : Int) (hd : 0 < delta) (k : Int)
    (h : t0 + k * delta ≤ ts) : k ≤ windowIdx t0 delta ts := by
  have := windowIdx_mono t0 delta hd h
  rwa [windowIdx_self_window t0 delta hd k] at this

lemma windowIdx_le_of_lt (t0 delta ts : Int) (hd : 0 < delta) (k : Int)
    (h : ts < t0 + k * delta + delta) : windowIdx t0 delta ts ≤ k := by
  by_contra hgt
  push_neg at hgt
  have hbr := (windowIdx_bracket t0 delta ts hd).1
  have : (k + 1) * delta ≤ windowIdx t0 delta ts * delta :=
    mul_le_mul_of_nonneg_right (by omega) (by omega)
  nlinarith

lemma advanceLoop_some (t0 delta ts : Int) (hd : 0 < delta) :
    ∀ (fuel : Nat) (k c n : Int), t0 + k * delta ≤ ts →
      advanceLoop fuel (t0 + k * delta) (t0 + k * delta + delta) ts delta = some (c, n) →
      c = t0 + windowIdx t0 delta ts * delta ∧ n = c + delta := by
  intro fuel
  induction fuel with
  | zero =>
    intro k c n hlb h
    simp only [advanceLoop] at h
    split_ifs at h with hge
    have hk1 := windowIdx_ge_of_le t0 delta ts hd k hlb
    have hk2 := windowIdx_le_of_lt t0 delta ts hd k (by omega)
    have hw : windowIdx t0 delta ts = k := le_antisymm hk2 hk1
    simp only [Option.some.injEq, Prod.mk.injEq] at h
    rw [hw]
    omega
  | succ f ih =>
    intro k c n hlb h
    simp only [advanceLoop] at h
    split_ifs at h with hge
    · rw [show t0 + k * delta + delta = t0 + (k + 1) * delta by ring] at h
      exact ih (k + 1) c n (by linarith [hge]) h
    · have hk1 := windowIdx_ge_of_le t0 delta ts hd k hlb
      have hk2 := windowIdx_le_of_lt t0 delta ts hd k (by omega)
      have hw : windowIdx t0 delta ts = k := le_antisymm hk2 hk1
      simp only [Option.some.injEq, Prod.mk.injEq] at h
      rw [hw]
      omega

lemma advanceLoop_terminates (t0 delta ts : Int) (hd : 0 < delta) :
    ∀ (fuel : Nat) (k : Int), windowIdx t0 delta ts - k < (fuel : Int) →
      t0 + k * delta ≤ ts →
      advanceLoop fuel (t0 + k * delta) (t0 + k * delta + delta) ts delta =
        some (t0 + windowIdx t0 delta ts * delta,
          t0 + windowIdx t0 delta ts * delta + delta) := by
  intro fuel
  induction fuel with
  | zero =>
    intro k hfuel hlb
    have := windowIdx_ge_of_le t0 delta ts hd k hlb
    omega
  | succ f ih =>
    intro k hfuel hlb
    simp only [advanceLoop]
    split_ifs with hge
    · rw [show t0 + k * delta + delta = t0 + (k + 1) * delta by ring]
      have hlb2 : t0 + (k + 1) * delta ≤ ts := by
        have : t0 + k * delta + delta ≤ ts := hge
        linarith
      exact ih (k + 1) (by omega) hlb2
    · have hk1 := windowIdx_ge_of_le t0 delta ts hd k hlb
      have hk2 := windowIdx_le_of_lt t0 delta ts hd k (by omega)
      have hw : windowIdx t0 delta ts = k := le_antisymm hk2 hk1
      rw [hw]

/-- With `delta = 0` the advance loop never finishes once its condition
holds, whatever the fuel: the window boundary stops moving. -/
lemma advanceLoop_zero_delta (ts : Int) :
    ∀ (fuel : Nat) (cur next : Int), next ≤ ts →
      advanceLoop fuel cur next ts 0 = none := by
  intro fuel
  induction fuel with
  | zero => intro cur next h; simp [advanceLoop, h]
  | succ f ih =>
    intro cur next h
    simp only [advanceLoop, if_pos (show ts ≥ next from h)]
    simpa using ih next next h

lemma sweepLoop_some (t0 delta : Int) (hd : 0 < delta) :
    ∀ (photos : List (PyPath × Int)) (fuel : Nat) (k : Int) (acc out : List Sample),
      acc ≠ [] →
      List.Sorted tsLE photos →
      (∀ pt ∈ photos, t0 + k * delta ≤ pt.2) →
      sweepLoop fuel delta photos (t0 + k * delta) (t0 + k * delta + delta) acc =
        some out →
      out = acc ++ selectSpec t0 delta (some k) photos := by
  intro photos
  induction photos with
  | nil =>
    intro fuel k acc out _ _ _ h
    simp only [sweepLoop, Option.some.injEq] at h
    simp [selectSpec, ← h]
  | cons pt rest ih =>
    rintro fuel k acc out hne hsort hlb h
    obtain ⟨p, ts⟩ := pt
    have hts : t0 + k * delta ≤ ts := hlb (p, ts) (List.mem_cons_self _ _)
    have hsort2 : List.Sorted tsLE rest := (List.sorted_cons.mp hsort).2
    have hsortHead : ∀ pt ∈ rest, ts ≤ pt.2 :=
      fun pt hpt => (List.sorted_cons.mp hsort).1 pt hpt
    simp only [sweepLoop] at h
    by_cases hge : ts ≥ t0 + k * delta + delta
    · rw [if_pos hge] at h
      cases hadv : advanceLoop fuel (t0 + k * delta) (t0 + k * delta + delta) ts delta with
      | none => rw [hadv] at h; simp at h
      | some cn =>
        obtain ⟨c, n⟩ := cn
        rw [hadv] at h
        obtain ⟨hc, hn⟩ := advanceLoop_some t0 delta ts hd fuel k c n hts hadv
        have hk1 : k + 1 ≤ windowIdx t0 delta ts := by
          apply windowIdx_ge_of_le t0 delta ts hd (k + 1)
          linarith [hge]
        have hbr := windowIdx_bracket t0 delta ts hd
        subst hc
        subst hn
        have hrec := ih fuel (windowIdx t0 delta ts)
          (acc ++ [⟨p, ts, t0 + windowIdx t0 delta ts * delta⟩]) out
          (by simp) hsort2
          (fun pt hpt => le_trans hbr.1 (hsortHead pt hpt)) h
        rw [hrec]
        have hne2 : ¬ (some k = some (windowIdx t0 delta ts)) := by
          simp only [Option.some.injEq]
          omega
        simp only [selectSpec, if_neg hne2, List.append_assoc, List.singleton_append]
    · rw [if_neg hge] at h
      have hw2 : windowIdx t0 delta ts = k :=
        le_antisymm (windowIdx_le_of_lt t0 delta ts hd k (by omega))
          (windowIdx_ge_of_le t0 delta ts hd k hts)
      rw [if_neg (by simpa using hne)] at h
      have hrec := ih fuel k acc out hne hsort2
        (fun pt hpt => le_trans hts (hsortHead pt hpt)) h
      rw [hrec]
      simp [selectSpec, hw2]

lemma sweepLoop_terminates (t0 delta : Int) (hd : 0 < delta) :
    ∀ (photos : List (PyPath × Int)) (fuel : Nat) (k : Int) (acc : List Sample),
      List.Sorted tsLE photos →
      (∀ pt ∈ photos, t0 + k * delta ≤ pt.2) →
      (∀ pt ∈ photos, windowIdx t0 delta pt.2 - k < (fuel : Int)) →
      (sweepLoop fuel delta photos (t0 + k * delta) (t0 + k * delta + delta) acc).isSome := by
  intro photos
  induction photos with
  | nil => intro fuel k acc _ _ _; simp [sweepLoop]
  | cons pt rest ih =>
    intro fuel k acc hsort hlb hfuel
    obtain ⟨p, ts⟩ := pt
    have hts : t0 + k * delta ≤ ts := hlb (p, ts) (List.mem_cons_self _ _)
    have hsort2 : List.Sorted tsLE rest := (List.sorted_cons.mp hsort).2
    have hsortHead : ∀ pt ∈ rest, ts ≤ pt.2 :=
      fun pt hpt => (List.sorted_cons.mp hsort).1 pt hpt
    have hbr := windowIdx_bracket t0 delta ts hd
    simp only [sweepLoop]
    by_cases hge : ts ≥ t0 + k * delta + delta
    · rw [if_pos hge]
      rw [advanceLoop_terminates t0 delta ts hd fuel k
        (hfuel (p, ts) (List.mem_cons_self _ _)) hts]
      exact ih fuel (windowIdx t0 delta ts) _ hsort2
        (fun pt hpt => le_trans hbr.1 (hsortHead pt hpt))
        (fun pt hpt => by
          have h1 := hfuel pt (List.mem_cons_of_mem _ hpt)
          have h2 := windowIdx_ge_of_le t0 delta ts hd k hts
          omega)
    · rw [if_neg hge]
      have hlb2 : ∀ pt ∈ rest, t0 + k * delta ≤ pt.2 :=
        fun pt hpt => le_trans hts (hsortHead pt hpt)
      have hfuel2 : ∀ pt ∈ rest, windowIdx t0 delta pt.2 - k < (fuel : Int) :=
        fun pt hpt => hfuel pt (List.mem_cons_of_mem _ hpt)
      by_cases hacc : acc.isEmpty
      · rw [if_pos hacc]
        exact ih fuel k _ hsort2 hlb2 hfuel2
      · rw [if_neg hacc]
        exact ih fuel k _ hsort2 hlb2 hfuel2

lemma selectSpec_mem (t0 delta : Int) :
    ∀ (l : List (PyPath × Int)) (w? : Option Int) (s : Sample),
      s ∈ selectSpec t0 delta w? l →
      (s.original_path, s.timestamp) ∈ l ∧
        s.interval_start = t0 + windowIdx t0 delta s.timestamp * delta := by
  intro l
  induction l with
  | nil => intro w? s h; simp [selectSpec] at h
  | cons pt rest ih =>
    intro w? s h
    obtain ⟨p, ts⟩ := pt
    simp only [selectSpec] at h
    split_ifs at h with hw
    · obtain ⟨h1, h2⟩ := ih w? s h
      exact ⟨List.mem_cons_of_mem _ h1, h2⟩
    · rcases List.mem_cons.mp h with he | hm
      · subst he
        exact ⟨List.mem_cons_self _ _, rfl⟩
      · obtain ⟨h1, h2⟩ := ih _ s hm
        exact ⟨List.mem_cons_of_mem _ h1, h2⟩

lemma selectSpec_starts (t0 delta : Int) (hd : 0 < delta) :
    ∀ (l : List (PyPath × Int)) (w : Int),
      List.Sorted tsLE l →
      (∀ pt ∈ l, w ≤ windowIdx t0 delta pt.2) →
      List.Pairwise (· < ·) ((selectSpec t0 delta (some w) l).map Sample.interval_start) ∧
      ∀ s ∈ selectSpec t0 delta (some w) l, t0 + w * delta < s.interval_start := by
  intro l
  induction l with
  | nil => intro w _ _; simp [selectSpec]
  | cons pt rest ih =>
    intro w hsort hwlb
    obtain ⟨p, ts⟩ := pt
    have hsort2 : List.Sorted tsLE rest := (List.sorted_cons.mp hsort).2
    have hrest_idx : ∀ pt ∈ rest, windowIdx t0 delta ts ≤ windowIdx t0 delta pt.2 :=
      fun pt hpt => windowIdx_mono t0 delta hd ((List.sorted_cons.mp hsort).1 pt hpt)
    simp only [selectSpec]
    split_ifs with hweq
    · have hww2 : w = windowIdx t0 delta ts := Option.some.inj hweq
      refine ih w hsort2 (fun pt hpt => ?_)
      rw [hww2]
      exact hrest_idx pt hpt
    · have hwle : w ≤ windowIdx t0 delta ts := hwlb (p, ts) (List.mem_cons_self _ _)
      have hwlt : w < windowIdx t0 delta ts :=
        lt_of_le_of_ne hwle (fun e => hweq (congrArg some e))
      obtain ⟨ihp, ihlb⟩ := ih (windowIdx t0 delta ts) hsort2 hrest_idx
      have hstep : t0 + w * delta < t0 + windowIdx t0 delta ts * delta := by
        have := mul_lt_mul_of_pos_right hwlt hd
        linarith
      constructor
      · rw [List.map_cons, List.pairwise_cons]
        refine ⟨fun b hb => ?_, ihp⟩
        obtain ⟨s, hs, hbs⟩ := List.mem_map.mp hb
        rw [← hbs]
        exact ihlb s hs
      · intro s hs
        rcases List.mem_cons.mp hs with he | hm
        · rw [he]
          exact hstep
        · exact lt_trans hstep (ihlb s hm)

lemma selectSpec_start_iff (t0 delta : Int) (hd : 0 < delta) :
    ∀ (l : List (PyPath × Int)) (w i : Int),
      List.Sorted tsLE l →
      (∀ pt ∈ l, w ≤ windowIdx t0 delta pt.2) →
      ((∃ s ∈ selectSpec t0 delta (some w) l, s.interval_start = t0 + i * delta) ↔
        (i ≠ w ∧ ∃ pt ∈ l, windowIdx t0 delta pt.2 = i)) := by
  intro l
  induction l with
  | nil => intro w i _ _; simp [selectSpec]
  | cons pt rest ih =>
    intro w i hsort hwlb
    obtain ⟨p, ts⟩ := pt
    have hsort2 : List.Sorted tsLE rest := (List.sorted_cons.mp hsort).2
    have hrest_idx : ∀ pt ∈ rest, windowIdx t0 delta ts ≤ windowIdx t0 delta pt.2 :=
      fun pt hpt => windowIdx_mono t0 delta hd ((List.sorted_cons.mp hsort).1 pt hpt)
    have hrest_w : ∀ pt ∈ rest, w ≤ windowIdx t0 delta pt.2 :=
      fun pt hpt => hwlb pt (List.mem_cons_of_mem _ hpt)
    simp only [selectSpec]
    split_ifs with hweq
    · have hww2 : w = windowIdx t0 delta ts := Option.some.inj hweq
      rw [ih w i hsort2 hrest_w]
      constructor
      · rintro ⟨hne, pt, hpt, hidx⟩
        exact ⟨hne, pt, List.mem_cons_of_mem _ hpt, hidx⟩
      · rintro ⟨hne, pt, hpt, hidx⟩
        rcases List.mem_cons.mp hpt with he | hm
        · exfalso
          apply hne
          rw [← hidx, he, ← hww2]
        · exact ⟨hne, pt, hm, hidx⟩
    · have hwle : w ≤ windowIdx t0 delta ts := hwlb (p, ts) (List.mem_cons_self _ _)
      have hwlt : w < windowIdx t0 delta ts :=
        lt_of_le_of_ne hwle (fun e => hweq (congrArg some e))
      constructor
      · rintro ⟨s, hs, hstart⟩
        rcases List.mem_cons.mp hs with he | hm
        · have : t0 + windowIdx t0 delta ts * delta = t0 + i * delta := by
            rw [he] at hstart
            exact hstart
          have hi2 : windowIdx t0 delta ts = i :=
            mul_right_cancel₀ (by omega : delta ≠ 0) (by linarith)
          exact ⟨by omega, (p, ts), List.mem_cons_self _ _, hi2⟩
        · obtain ⟨hne2, pt, hpt, hidx⟩ :=
            (ih (windowIdx t0 delta ts) i hsort2 hrest_idx).mp ⟨s, hm, hstart⟩
          have : windowIdx t0 delta ts ≤ i := by
            rw [← hidx]
            exact hrest_idx pt hpt
          exact ⟨by omega, pt, List.mem_cons_of_mem _ hpt, hidx⟩
      · rintro ⟨hne, pt, hpt, hidx⟩
        by_cases hiw2 : i = windowIdx t0 delta ts
        · refine ⟨⟨p, ts, t0 + windowIdx t0 delta ts * delta⟩, List.mem_cons_self _ _, ?_⟩
          rw [hiw2]
        · rcases List.mem_cons.mp hpt with he | hm
          · exfalso
            apply hiw2
            rw [← hidx, he]
          · obtain ⟨s, hs, hstart⟩ :=
              (ih (windowIdx t0 delta ts) i hsort2 hrest_idx).mpr ⟨hiw2, pt, hm, hidx⟩
            exact ⟨s, List.mem_cons_of_mem _ hs, hstart⟩

lemma sortByTs_sorted (l : List (PyPath × Int)) : List.Sorted tsLE (sortByTs l) :=
  List.sorted_insertionSort tsLE l

lemma sortByTs_perm (l : List (PyPath × Int)) : (sortByTs l).Perm l :=
  List.perm_insertionSort tsLE l

lemma sortByTs_eq_nil {l : List (PyPath × Int)} (h : sortByTs l = []) : l = [] := by
  have hp := sortByTs_perm l
  rw [h] at hp
  exact hp.symm.eq_nil

/-- Unfolding of `process_images_for_sampling` past its first photo: the
first photo is always below the first window's end, so it is taken as the
first sample, and the sweep continues on the tail. -/
lemma process_sampling_unfold (fuel : Nat) (photos : List (PyPath × Option Int))
    (interval days hours minutes : Int) (p0 : PyPath) (t0 : Int)
    (tl : List (PyPath × Int)) (hi : 1 ≤ interval)
    (hsorted : sortByTs (corrected_files photos days hours minutes) = (p0, t0) :: tl) :
    process_images_for_sampling fuel photos interval days hours minutes =
      sweepLoop fuel (interval * 60) tl t0 (t0 + interval * 60) [⟨p0, t0, t0⟩] := by
  have hemp : (corrected_files photos days hours minutes).isEmpty = false := by
    cases h : corrected_files photos days hours minutes with
    | nil => rw [h] at hsorted; simp [sortByTs, List.insertionSort] at hsorted
    | cons a l => simp
  simp only [process_images_for_sampling, hemp, Bool.false_eq_true, if_false, hsorted]
  simp only [sweepLoop]
  rw [if_neg (by omega : ¬ t0 ≥ t0 + interval * 60)]
  simp

lemma process_sampling_some (fuel : Nat) (photos : List (PyPath × Option Int))
    (interval days hours minutes : Int) (hi : 1 ≤ interval) (samples : List Sample)
    (hres : process_images_for_sampling fuel photos interval days hours minutes =
      some samples) :
    (corrected_files photos days hours minutes = [] ∧ samples = []) ∨
    (∃ p0 t0 tl,
      sortByTs (corrected_files photos days hours minutes) = (p0, t0) :: tl ∧
      samples = ⟨p0, t0, t0⟩ :: selectSpec t0 (interval * 60) (some 0) tl) := by
  cases hsorted : sortByTs (corrected_files photos days hours minutes) with
  | nil =>
    left
    have hnil := sortByTs_eq_nil hsorted
    refine ⟨hnil, ?_⟩
    simp only [process_images_for_sampling, hnil, List.isEmpty_nil, if_true,
      Option.some.injEq] at hres
    exact hres.symm
  | cons hd0 tl =>
    obtain ⟨p0, t0⟩ := hd0
    right
    refine ⟨p0, t0, tl, rfl, ?_⟩
    rw [process_sampling_unfold fuel photos interval days hours minutes p0 t0 tl hi
      hsorted] at hres
    have hδpos : (0 : Int) < interval * 60 := by omega
    have hsorted_all : List.Sorted tsLE ((p0, t0) :: tl) := by
      rw [← hsorted]
      exact sortByTs_sorted _
    have hhead : ∀ pt ∈ tl, t0 ≤ pt.2 :=
      fun pt hpt => (List.sorted_cons.mp hsorted_all).1 pt hpt
    have h0 := sweepLoop_some t0 (interval * 60) hδpos tl fuel 0 [⟨p0, t0, t0⟩]
      samples (by simp) (List.sorted_cons.mp hsorted_all).2
      (fun pt hpt => by simpa using hhead pt hpt)
      (by simpa using hres)
    rw [h0]
    simp

lemma exists_fuel_bound (g : PyPath × Int → Int) :
    ∀ l : List (PyPath × Int), ∃ fuel : Nat, ∀ pt ∈ l, g pt < (fuel : Int) := by
  intro l
  induction l with
  | nil => exact ⟨1, by simp⟩
  | cons a l ih =>
    obtain ⟨n, hn⟩ := ih
    refine ⟨n + (g a).toNat + 1, fun pt hpt => ?_⟩
    rcases List.mem_cons.mp hpt with he | hm
    · subst he; push_cast; omega
    · have := hn pt hm; push_cast; omega

lemma process_sampling_terminates (photos : List (PyPath × Option Int))
    (interval days hours minutes : Int) (hi : 1 ≤ interval) :
    ∃ (fuel : Nat) (samples : List Sample),
      process_images_for_sampling fuel photos interval days hours minutes =
        some samples := by
  cases hsorted : sortByTs (corrected_files photos days hours minutes) with
  | nil =>
    have hnil := sortByTs_eq_nil hsorted
    exact ⟨0, [], by simp [process_images_for_sampling, hnil]⟩
  | cons hd0 tl =>
    obtain ⟨p0, t0⟩ := hd0
    have hδpos : (0 : Int) < interval * 60 := by omega
    obtain ⟨fuel, hfuel⟩ :=
      exists_fuel_bound (fun pt => windowIdx t0 (interval * 60) pt.2) ((p0, t0) :: tl)
    refine ⟨fuel, ?_⟩
    have hsorted_all : List.Sorted tsLE ((p0, t0) :: tl) := by
      rw [← hsorted]
      exact sortByTs_sorted _
    have hhead : ∀ pt ∈ tl, t0 ≤ pt.2 :=
      fun pt hpt => (List.sorted_cons.mp hsorted_all).1 pt hpt
    have hterm := sweepLoop_terminates t0 (interval * 60) hδpos tl fuel 0 [⟨p0, t0, t0⟩]
      (List.sorted_cons.mp hsorted_all).2
      (fun pt hpt => by simpa using hhead pt hpt)
      (fun pt hpt => by
        have := hfuel pt (List.mem_cons_of_mem _ hpt)
        omega)
    rw [process_sampling_unfold fuel photos interval days hours minutes p0 t0 tl hi hsorted]
    obtain ⟨samples, hs⟩ := Option.isSome_iff_exists.mp (by simpa using hterm)
    exact ⟨samples, hs⟩

lemma process_sampling_some_min (fuel : Nat) (photos : List (PyPath × Option Int))
    (interval days hours minutes t0 : Int) (samples : List Sample) (hi : 1 ≤ interval)
    (hres : process_images_for_sampling fuel photos interval days hours minutes =
      some samples)
    (hmem : t0 ∈ (corrected_files photos days hours minutes).map Prod.snd)
    (hlb : ∀ t ∈ (corrected_files photos days hours minutes).map Prod.snd, t0 ≤ t) :
    ∃ p0 tl,
      sortByTs (corrected_files photos days hours minutes) = (p0, t0) :: tl ∧
      samples = ⟨p0, t0, t0⟩ :: selectSpec t0 (interval * 60) (some 0) tl := by
  rcases process_sampling_some fuel photos interval days hours minutes hi samples hres with
    ⟨hnil, _⟩ | ⟨p0, t0', tl, hs, hsamp⟩
  · rw [hnil] at hmem
    simp at hmem
  · have hpermmap :=
      (sortByTs_perm (corrected_files photos days hours minutes)).map Prod.snd
    have hsorted_all : List.Sorted tsLE ((p0, t0') :: tl) := by
      rw [← hs]
      exact sortByTs_sorted _
    have hmem' : t0 ∈ ((p0, t0') :: tl).map Prod.snd := by
      rw [hs] at hpermmap
      exact hpermmap.symm.mem_iff.mp hmem
    have ht0mem : t0' ∈ (corrected_files photos days hours minutes).map Prod.snd := by
      rw [hs] at hpermmap
      exact hpermmap.mem_iff.mp (by simp)
    have h1 : t0 ≤ t0' := hlb t0' ht0mem
    have h2 : t0' ≤ t0 := by
      simp only [List.map_cons, List.mem_cons] at hmem'
      rcases hmem' with he | hm
      · omega
      · obtain ⟨pt, hpt, hpteq⟩ := List.mem_map.mp hm
        have := (List.sorted_cons.mp hsorted_all).1 pt hpt
        simp only [tsLE] at this
        omega
    have : t0' = t0 := le_antisymm h2 h1
    subst this
    exact ⟨p0, tl, hs, hsamp⟩

/-- C2: with a positive interval, the sampler emits exactly one selection
per window containing at least one corrected photo (window `i` starts at
`t0 + i * width`, anchored at the earliest corrected timestamp `t0`), no
entries for empty windows, and a selection carrying the earliest timestamp
is always present.  In particular photos at 0:00 and 1:00 with a 10 minute
width give exactly 2 samples, and photos sharing one timestamp give
exactly 1. -/
theorem sampler_one_sample_per_populated_window :
    (∀ (fuel : Nat) (photos : List (PyPath × Option Int))
        (interval days hours minutes t0 : Int) (samples : List Sample),
      1 ≤ interval →
      process_images_for_sampling fuel photos interval days hours minutes =
        some samples →
      t0 ∈ (corrected_files photos days hours minutes).map Prod.snd →
      (∀ t ∈ (corrected_files photos days hours minutes).map Prod.snd, t0 ≤ t) →
      (∀ i : Int, 0 ≤ i →
        ((∃ pt ∈ corrected_files photos days hours minutes,
            windowIdx t0 (interval * 60) pt.2 = i) ↔
          ∃ s ∈ samples, s.interval_start = t0 + i * (interval * 60))) ∧
      (samples.map Sample.interval_start).Nodup ∧
      (∃ s ∈ samples, s.timestamp = t0)) ∧
    (process_images_for_sampling 10
        [(⟨[], "a.jpg"⟩, some (mkDT 2025 5 16 0 0 0)),
         (⟨[], "b.jpg"⟩, some (mkDT 2025 5 16 1 0 0))] 10 0 0 0).map List.length =
      some 2 ∧
    (process_images_for_sampling 10
        [(⟨[], "a.jpg"⟩, some (mkDT 2025 5 16 0 0 0)),
         (⟨[], "b.jpg"⟩, some (mkDT 2025 5 16 0 0 0)),
         (⟨[], "c.jpg"⟩, some (mkDT 2025 5 16 0 0 0))] 10 0 0 0).map List.length =
      some 1 := by
  refine ⟨?_, by decide, by decide⟩
  intro fuel photos interval days hours minutes t0 samples hi hres hmem hlb
  obtain ⟨p0, tl, hs, hsamp⟩ :=
    process_sampling_some_min fuel photos interval days hours minutes t0 samples hi
      hres hmem hlb
  have hδpos : (0 : Int) < interval * 60 := by omega
  have hδne : (interval * 60 : Int) ≠ 0 := by omega
  have hsorted_all : List.Sorted tsLE ((p0, t0) :: tl) := by
    rw [← hs]
    exact sortByTs_sorted _
  have hsorted_tl : List.Sorted tsLE tl := (List.sorted_cons.mp hsorted_all).2
  have hhead : ∀ pt ∈ tl, t0 ≤ pt.2 :=
    fun pt hpt => (List.sorted_cons.mp hsorted_all).1 pt hpt
  have hlb0 : ∀ pt ∈ tl, (0 : Int) ≤ windowIdx t0 (interval * 60) pt.2 :=
    fun pt hpt =>
      windowIdx_ge_of_le t0 (interval * 60) pt.2 hδpos 0 (by simpa using hhead pt hpt)
  have hmemsorted : ∀ pt, pt ∈ corrected_files photos days hours minutes ↔
      pt ∈ (p0, t0) :: tl := by
    intro pt
    rw [← hs]
    exact (sortByTs_perm _).mem_iff.symm
  have hidx0 : windowIdx t0 (interval * 60) t0 = 0 := by
    unfold windowIdx
    simp
  subst hsamp
  refine ⟨?_, ?_, ⟨⟨p0, t0, t0⟩, List.mem_cons_self _ _, rfl⟩⟩
  · intro i _
    constructor
    · rintro ⟨pt, hpt, hidx⟩
      rcases List.mem_cons.mp ((hmemsorted pt).mp hpt) with he | hm
      · refine ⟨⟨p0, t0, t0⟩, List.mem_cons_self _ _, ?_⟩
        rw [he] at hidx
        simp only [hidx0] at hidx
        rw [← hidx]
        ring
      · by_cases hi0 : i = 0
        · refine ⟨⟨p0, t0, t0⟩, List.mem_cons_self _ _, ?_⟩
          rw [hi0]
          ring
        · obtain ⟨s, hsm, hstart⟩ :=
            (selectSpec_start_iff t0 (interval * 60) hδpos tl 0 i hsorted_tl
              hlb0).mpr ⟨hi0, pt, hm, hidx⟩
          exact ⟨s, List.mem_cons_of_mem _ hsm, hstart⟩
    · rintro ⟨s, hsm, hstart⟩
      rcases List.mem_cons.mp hsm with he | hm
      · have h0 : t0 = t0 + i * (interval * 60) := by
          rw [he] at hstart
          exact hstart
        have hi0 : i = 0 := by
          have : i * (interval * 60) = 0 * (interval * 60) := by linarith
          exact mul_right_cancel₀ hδne this
        refine ⟨(p0, t0), (hmemsorted (p0, t0)).mpr (List.mem_cons_self _ _), ?_⟩
        rw [hi0]
        exact hidx0
      · obtain ⟨_, pt, hpt, hidx⟩ :=
          (selectSpec_start_iff t0 (interval * 60) hδpos tl 0 i hsorted_tl
            hlb0).mp ⟨s, hm, hstart⟩
        exact ⟨pt, (hmemsorted pt).mpr (List.mem_cons_of_mem _ hpt), hidx⟩
  · obtain ⟨hpair, hgt⟩ :=
      selectSpec_starts t0 (interval * 60) hδpos tl 0 hsorted_tl hlb0
    rw [List.map_cons, List.nodup_cons]
    constructor
    · intro hmem'
      obtain ⟨s, hsm, hbs⟩ := List.mem_map.mp hmem'
      have hgt' := hgt s hsm
      simp only [zero_mul, add_zero] at hgt'
      have hred : Sample.interval_start ⟨p0, t0, t0⟩ = t0 := rfl
      rw [hred] at hbs
      omega
    · exact List.Pairwise.imp (fun h => ne_of_lt h) hpair

/-- C2 witness: the gap-skipping scenario, photos at 0:00 and 1:00 with a
10 minute window. -/
theorem sampler_one_sample_per_populated_window_witness :
    ∃ samples,
      process_images_for_sampling 10
        [(⟨[], "a.jpg"⟩, some (mkDT 2025 5 16 0 0 0)),
         (⟨[], "b.jpg"⟩, some (mkDT 2025 5 16 1 0 0))] 10 0 0 0 = some samples ∧
      (samples.map Sample.interval_start).Nodup ∧
      (∃ s ∈ samples, s.timestamp = mkDT 2025 5 16 0 0 0) := by
  refine ⟨[⟨⟨[], "a.jpg"⟩, mkDT 2025 5 16 0 0 0, mkDT 2025 5 16 0 0 0⟩,
    ⟨⟨[], "b.jpg"⟩, mkDT 2025 5 16 1 0 0, mkDT 2025 5 16 1 0 0⟩], by decide, ?_⟩
  exact (sampler_one_sample_per_populated_window.1 10
    [(⟨[], "a.jpg"⟩, some (mkDT 2025 5 16 0 0 0)),
     (⟨[], "b.jpg"⟩, some (mkDT 2025 5 16 1 0 0))] 10 0 0 0
    (mkDT 2025 5 16 0 0 0) _ (by norm_num) (by decide) (by decide) (by decide)).2

/-- C3: with a positive interval width, the emitted window starts are
strictly increasing, every window start is the earliest corrected
timestamp plus a whole (non-negative) number of widths, and each selected
photo's timestamp lies in its half-open window. -/
theorem sampler_monotone_anchored_windows :
    ∀ (fuel : Nat) (photos : List (PyPath × Option Int))
      (interval days hours minutes t0 : Int) (samples : List Sample),
      1 ≤ interval →
      process_images_for_sampling fuel photos interval days hours minutes =
        some samples →
      t0 ∈ (corrected_files photos days hours minutes).map Prod.snd →
      (∀ t ∈ (corrected_files photos days hours minutes).map Prod.snd, t0 ≤ t) →
      List.Pairwise (· < ·) (samples.map Sample.interval_start) ∧
      (∀ s ∈ samples, ∃ k : Int, 0 ≤ k ∧
        s.interval_start = t0 + k * (interval * 60)) ∧
      (∀ s ∈ samples, s.interval_start ≤ s.timestamp ∧
        s.timestamp < s.interval_start + interval * 60) := by
  intro fuel photos interval days hours minutes t0 samples hi hres hmem hlb
  obtain ⟨p0, tl, hs, hsamp⟩ :=
    process_sampling_some_min fuel photos interval days hours minutes t0 samples hi
      hres hmem hlb
  have hδpos : (0 : Int) < interval * 60 := by omega
  have hsorted_all : List.Sorted tsLE ((p0, t0) :: tl) := by
    rw [← hs]
    exact sortByTs_sorted _
  have hsorted_tl : List.Sorted tsLE tl := (List.sorted_cons.mp hsorted_all).2
  have hhead : ∀ pt ∈ tl, t0 ≤ pt.2 :=
    fun pt hpt => (List.sorted_cons.mp hsorted_all).1 pt hpt
  have hlb0 : ∀ pt ∈ tl, (0 : Int) ≤ windowIdx t0 (interval * 60) pt.2 :=
    fun pt hpt =>
      windowIdx_ge_of_le t0 (interval * 60) pt.2 hδpos 0 (by simpa using hhead pt hpt)
  obtain ⟨hpair, hgt⟩ :=
    selectSpec_starts t0 (interval * 60) hδpos tl 0 hsorted_tl hlb0
  subst hsamp
  refine ⟨?_, ?_, ?_⟩
  · rw [List.map_cons, List.pairwise_cons]
    refine ⟨fun b hb => ?_, hpair⟩
    obtain ⟨s, hsm, hbs⟩ := List.mem_map.mp hb
    have hgt' := hgt s hsm
    simp only [zero_mul, add_zero] at hgt'
    have hred : Sample.interval_start ⟨p0, t0, t0⟩ = t0 := rfl
    rw [hred]
    omega
  · intro s hsm
    rcases List.mem_cons.mp hsm with he | hm
    · refine ⟨0, le_refl 0, ?_⟩
      rw [he]
      ring
    · obtain ⟨hmem2, hstart⟩ := selectSpec_mem t0 (interval * 60) tl (some 0) s hm
      refine ⟨windowIdx t0 (interval * 60) s.timestamp, ?_, hstart⟩
      have := hlb0 (s.original_path, s.timestamp) hmem2
      simpa using this
  · intro s hsm
    rcases List.mem_cons.mp hsm with he | hm
    · rw [he]
      refine ⟨le_refl t0, ?_⟩
      show t0 < t0 + interval * 60
      omega
    · obtain ⟨hmem2, hstart⟩ := selectSpec_mem t0 (interval * 60) tl (some 0) s hm
      have hbr := windowIdx_bracket t0 (interval * 60) s.timestamp hδpos
      rw [hstart]
      exact ⟨hbr.1, hbr.2⟩

/-- C3 witness: concrete two-window run. -/
theorem sampler_monotone_anchored_windows_witness :
    List.Pairwise (· < ·)
      (([⟨⟨[], "a.jpg"⟩, mkDT 2025 5 16 0 0 0, mkDT 2025 5 16 0 0 0⟩,
         ⟨⟨[], "b.jpg"⟩, mkDT 2025 5 16 1 0 0, mkDT 2025 5 16 1 0 0⟩] :
        List Sample).map Sample.interval_start) := by
  exact (sampler_monotone_anchored_windows 10
    [(⟨[], "a.jpg"⟩, some (mkDT 2025 5 16 0 0 0)),
     (⟨[], "b.jpg"⟩, some (mkDT 2025 5 16 1 0 0))] 10 0 0 0
    (mkDT 2025 5 16 0 0 0) _ (by norm_num) (by decide) (by decide) (by decide)).1

/-- C5: with `interval_minutes ≥ 1` the sampler terminates on every
collection (some fuel suffices); with `interval_minutes = 0` and a photo
whose corrected timestamp strictly exceeds another's (so in particular the
earliest), the window-advance loop never finishes, whatever the fuel. -/
theorem sampler_termination_requires_positive_width :
    (∀ (photos : List (PyPath × Option Int)) (interval days hours minutes : Int),
      1 ≤ interval →
      ∃ (fuel : Nat) (samples : List Sample),
        process_images_for_sampling fuel photos interval days hours minutes =
          some samples) ∧
    (∀ (photos : List (PyPath × Option Int)) (days hours minutes : Int) (fuel : Nat),
      (∃ pt1 ∈ corrected_files photos days hours minutes,
       ∃ pt2 ∈ corrected_files photos days hours minutes, pt1.2 < pt2.2) →
      process_images_for_sampling fuel photos 0 days hours minutes = none) := by
  constructor
  · intro photos interval days hours minutes hi
    exact process_sampling_terminates photos interval days hours minutes hi
  · rintro photos days hours minutes fuel ⟨pt1, hpt1, pt2, hpt2, hlt⟩
    cases hsorted : sortByTs (corrected_files photos days hours minutes) with
    | nil =>
      exfalso
      rw [sortByTs_eq_nil hsorted] at hpt1
      simp at hpt1
    | cons hd0 tl =>
      obtain ⟨p0, t0⟩ := hd0
      have hemp : (corrected_files photos days hours minutes).isEmpty = false := by
        cases h : corrected_files photos days hours minutes with
        | nil => rw [h] at hpt1; simp at hpt1
        | cons a l => simp
      simp only [process_images_for_sampling, hemp, Bool.false_eq_true, if_false,
        hsorted]
      simp only [sweepLoop]
      rw [if_pos (by omega : t0 ≥ t0 + 0 * 60)]
      rw [show (0 : Int) * 60 = 0 by ring]
      rw [advanceLoop_zero_delta t0 fuel t0 (t0 + 0) (by omega)]

/-- C5 witness: a two-photo collection terminates with width 10 but
diverges with width 0. -/
theorem sampler_termination_requires_positive_width_witness :
    (∃ (fuel : Nat) (samples : List Sample),
      process_images_for_sampling fuel
        [(⟨[], "a.jpg"⟩, some 0), (⟨[], "b.jpg"⟩, some 3600)] 10 0 0 0 =
        some samples) ∧
    process_images_for_sampling 7
      [(⟨[], "a.jpg"⟩, some 0), (⟨[], "b.jpg"⟩, some 3600)] 0 0 0 0 = none := by
  constructor
  · exact sampler_termination_requires_positive_width.1
      [(⟨[], "a.jpg"⟩, some 0), (⟨[], "b.jpg"⟩, some 3600)] 10 0 0 0 (by norm_num)
  · exact sampler_termination_requires_positive_width.2
      [(⟨[], "a.jpg"⟩, some 0), (⟨[], "b.jpg"⟩, some 3600)] 0 0 0 7
      ⟨((⟨[], "a.jpg"⟩ : PyPath), (0 : Int)), by decide,
       ((⟨[], "b.jpg"⟩ : PyPath), (3600 : Int)), by decide, by decide⟩

/-- C9: `get_exif_datetime` consults exactly the three fields
`EXIF DateTimeOriginal`, `EXIF DateTimeDigitized`, `Image DateTime` in
that priority order: an unreadable file gives `none`, no recognized field
gives `none`, and the first present field decides the outcome — its value
parsed from the fixed `YYYY:MM:DD HH:MM:SS` encoding, `none` when it does
not match (the raised parse error is caught, never propagated; the total
embedding returns in every case). -/
theorem get_exif_datetime_priority_and_failures :
    (get_exif_datetime none = none) ∧
    (∀ tags : List (String × String),
      (∀ tagName ∈ exifTags, tags.lookup tagName = none) →
      get_exif_datetime (some tags) = none) ∧
    (∀ (tags : List (String × String)) (tagName : String) (v : String),
      exifTags.find? (fun t => (tags.lookup t).isSome) = some tagName →
      tags.lookup tagName = some v →
      get_exif_datetime (some tags) = parseExifDatetime v) := by
  refine ⟨rfl, ?_, ?_⟩
  · intro tags h
    have h1 := h "EXIF DateTimeOriginal" (by simp [exifTags])
    have h2 := h "EXIF DateTimeDigitized" (by simp [exifTags])
    have h3 := h "Image DateTime" (by simp [exifTags])
    simp [get_exif_datetime, exifTags, findDatetimeTag, h1, h2, h3]
  · intro tags tagName v hfind hlook
    cases hl1 : tags.lookup "EXIF DateTimeOriginal" with
    | some v1 =>
      have htn : tagName = "EXIF DateTimeOriginal" := by
        simp [exifTags, List.find?, hl1] at hfind
        exact hfind.symm
      subst htn
      rw [hlook] at hl1
      have hv : v1 = v := by
        simpa using hl1.symm
      subst hv
      simp only [get_exif_datetime, exifTags, findDatetimeTag, hlook]
      cases hp : parseExifDatetime v1 <;> simp [hp]
    | none =>
      cases hl2 : tags.lookup "EXIF DateTimeDigitized" with
      | some v2 =>
        have htn : tagName = "EXIF DateTimeDigitized" := by
          simp [exifTags, List.find?, hl1, hl2] at hfind
          exact hfind.symm
        subst htn
        rw [hlook] at hl2
        have hv : v2 = v := by
          simpa using hl2.symm
        subst hv
        simp only [get_exif_datetime, exifTags, findDatetimeTag, hl1, hlook]
        cases hp : parseExifDatetime v2 <;> simp [hp]
      | none =>
        cases hl3 : tags.lookup "Image DateTime" with
        | some v3 =>
          have htn : tagName = "Image DateTime" := by
            simp [exifTags, List.find?, hl1, hl2, hl3] at hfind
            exact hfind.symm
          subst htn
          rw [hlook] at hl3
          have hv : v3 = v := by
            simpa using hl3.symm
          subst hv
          simp only [get_exif_datetime, exifTags, findDatetimeTag, hl1, hl2, hlook]
          cases hp : parseExifDatetime v3 <;> simp [hp]
        | none =>
          simp [exifTags, List.find?, hl1, hl2, hl3] at hfind

/-- C9 witness: the original-capture field takes priority over a
generic-image field and parses to 2024-03-24T09:00:00; a malformed
priority field yields `none` without falling through to the later field;
and the parser keeps `strptime`'s leniencies — an un-padded month and a
doubled separator space both parse. -/
theorem get_exif_datetime_priority_and_failures_witness :
    get_exif_datetime (some [("Image DateTime", "2024:03:24 10:30:45"),
      ("EXIF DateTimeOriginal", "2024:03:24 09:00:00")]) =
      some (mkDT 2024 3 24 9 0 0) ∧
    get_exif_datetime (some [("EXIF DateTimeOriginal", "garbage"),
      ("Image DateTime", "2024:03:24 10:30:45")]) = none ∧
    get_exif_datetime (some [("EXIF DateTimeOriginal", "2024:3:24 10:30:45")]) =
      some (mkDT 2024 3 24 10 30 45) ∧
    get_exif_datetime (some [("EXIF DateTimeOriginal", "2024:03:24  10:30:45")]) =
      some (mkDT 2024 3 24 10 30 45) := by
  refine ⟨?_, ?_, ?_, ?_⟩
  · have := (get_exif_datetime_priority_and_failures.2.2
      [("Image DateTime", "2024:03:24 10:30:45"),
       ("EXIF DateTimeOriginal", "2024:03:24 09:00:00")]
      "EXIF DateTimeOriginal" "2024:03:24 09:00:00" (by decide) (by decide))
    rw [this]
    decide
  · have := (get_exif_datetime_priority_and_failures.2.2
      [("EXIF DateTimeOriginal", "garbage"),
       ("Image DateTime", "2024:03:24 10:30:45")]
      "EXIF DateTimeOriginal" "garbage" (by decide) (by decide))
    rw [this]
    decide
  · have := (get_exif_datetime_priority_and_failures.2.2
      [("EXIF DateTimeOriginal", "2024:3:24 10:30:45")]
      "EXIF DateTimeOriginal" "2024:3:24 10:30:45" (by decide) (by decide))
    rw [this]
    decide
  · have := (get_exif_datetime_priority_and_failures.2.2
      [("EXIF DateTimeOriginal", "2024:03:24  10:30:45")]
      "EXIF DateTimeOriginal" "2024:03:24  10:30:45" (by decide) (by decide))
    rw [this]
    decide

/-- C6: `process_files` re-checks the destination right before each
transfer and skips an existing destination without touching the
filesystem; a raising transfer is caught and contributes no success; in
both cases the remaining plans are still processed on the same state; the
returned count is exactly the number of plans that succeeded, never more
than the batch size, and a batch of all-fresh, pairwise-distinct
destinations with no raises succeeds entirely. -/
theorem process_files_skip_catch_count :
    (∀ (item : RenamePlan) (e : Bool) (rest : List (RenamePlan × Bool)) (fs : List PyPath),
      item.new_path ∈ fs →
      process_files ((item, e) :: rest) fs = process_files rest fs) ∧
    (∀ (item : RenamePlan) (rest : List (RenamePlan × Bool)) (fs : List PyPath),
      item.new_path ∉ fs →
      process_files ((item, true) :: rest) fs = process_files rest fs) ∧
    (∀ (item : RenamePlan) (rest : List (RenamePlan × Bool)) (fs : List PyPath),
      item.new_path ∉ fs →
      (process_files ((item, false) :: rest) fs).1 =
        (process_files rest (applyTransfer fs item)).1 + 1) ∧
    (∀ (plans : List (RenamePlan × Bool)) (fs : List PyPath),
      (process_files plans fs).1 = (successfulPlans plans fs).length) ∧
    (∀ (plans : List (RenamePlan × Bool)) (fs : List PyPath),
      (process_files plans fs).1 ≤ plans.length) ∧
    (∀ (plans : List RenamePlan) (fs : List PyPath),
      (plans.map RenamePlan.new_path).Nodup →
      (∀ np ∈ plans.map RenamePlan.new_path, np ∉ fs) →
      (process_files (plans.map (fun p => (p, false))) fs).1 = plans.length) := by
  refine ⟨?_, ?_, ?_, ?_, ?_, ?_⟩
  · intro item e rest fs h
    simp [process_files, h]
  · intro item rest fs h
    simp [process_files, h]
  · intro item rest fs h
    simp [process_files, h]
  · intro plans
    induction plans with
    | nil => intro fs; simp [process_files, successfulPlans]
    | cons pe rest ih =>
      intro fs
      obtain ⟨item, e⟩ := pe
      by_cases h1 : item.new_path ∈ fs
      · simp [process_files, successfulPlans, h1, ih]
      · cases e
        · simp [process_files, successfulPlans, h1, ih]
        · simp [process_files, successfulPlans, h1, ih]
  · intro plans
    induction plans with
    | nil => intro fs; simp [process_files]
    | cons pe rest ih =>
      intro fs
      obtain ⟨item, e⟩ := pe
      by_cases h1 : item.new_path ∈ fs
      · simp only [process_files, if_pos h1, List.length_cons]
        exact le_trans (ih fs) (Nat.le_succ _)
      · cases e
        · simp only [process_files, if_neg h1, Bool.false_eq_true, if_false,
            List.length_cons]
          exact Nat.succ_le_succ (ih (applyTransfer fs item))
        · simp only [process_files, if_neg h1, if_true, List.length_cons]
          exact le_trans (ih fs) (Nat.le_succ _)
  · intro plans
    induction plans with
    | nil => intro fs _ _; simp [process_files]
    | cons item rest ih =>
      intro fs hnodup hfresh
      have h1 : item.new_path ∉ fs :=
        hfresh item.new_path (by simp)
      have hnodup2 : (rest.map RenamePlan.new_path).Nodup :=
        (List.nodup_cons.mp (by simpa using hnodup)).2
      have hhead : item.new_path ∉ rest.map RenamePlan.new_path :=
        (List.nodup_cons.mp (by simpa using hnodup)).1
      have hfresh2 : ∀ np ∈ rest.map RenamePlan.new_path, np ∉ applyTransfer fs item := by
        intro np hnp
        have hne : np ≠ item.new_path := fun e => hhead (e ▸ hnp)
        have hnf : np ∉ fs := hfresh np (List.mem_cons_of_mem _ hnp)
        unfold applyTransfer
        split_ifs
        · simp only [List.mem_cons]
          rintro (he | hm)
          · exact hne he
          · exact hnf hm
        · simp only [List.mem_cons]
          rintro (he | hm)
          · exact hne he
          · exact hnf (List.mem_of_mem_erase hm)
      simp only [List.map_cons, process_files, if_neg h1, Bool.false_eq_true,
        if_false, List.length_cons]
      rw [ih (applyTransfer fs item) hnodup2 hfresh2]

/-- C6 witness: a batch of three fresh plans whose middle transfer raises
reports exactly two successes, and a plan whose destination already exists
is skipped leaving the filesystem state exactly as the remaining batch
finds it. -/
theorem process_files_skip_catch_count_witness :
    (process_files
      [(⟨⟨[], "a.jpg"⟩, 0, 0, ⟨["o"], "p1.jpg"⟩, true⟩, false),
       (⟨⟨[], "b.jpg"⟩, 0, 0, ⟨["o"], "p2.jpg"⟩, true⟩, true),
       (⟨⟨[], "c.jpg"⟩, 0, 0, ⟨["o"], "p3.jpg"⟩, true⟩, false)] []).1 = 2 ∧
    process_files
      [(⟨⟨[], "a.jpg"⟩, 0, 0, ⟨["o"], "p1.jpg"⟩, true⟩, false),
       (⟨⟨[], "c.jpg"⟩, 0, 0, ⟨["o"], "p3.jpg"⟩, true⟩, false)]
      [⟨["o"], "p1.jpg"⟩] =
    process_files [(⟨⟨[], "c.jpg"⟩, 0, 0, ⟨["o"], "p3.jpg"⟩, true⟩, false)]
      [⟨["o"], "p1.jpg"⟩] := by
  constructor
  · decide
  · exact process_files_skip_catch_count.1
      ⟨⟨[], "a.jpg"⟩, 0, 0, ⟨["o"], "p1.jpg"⟩, true⟩ false
      [(⟨⟨[], "c.jpg"⟩, 0, 0, ⟨["o"], "p3.jpg"⟩, true⟩, false)]
      [⟨["o"], "p1.jpg"⟩] (by decide)

/-- C10: the rename command exits with status 1, leaving the filesystem
untouched, exactly when neither or both of in-place and output directory
are given; any other configuration exits 0, whatever the per-file
outcomes (including raising transfers). -/
theorem rename_exit_code_semantics :
    ∀ (inplace : Bool) (output_dir : Option (List String))
      (days hours minutes : Int) (pfx : String) (dry_run yes confirmed : Bool)
      (photos : List (PyPath × Option Int)) (raises : List Bool) (fs : List PyPath),
      (((inplace = false ∧ output_dir = none) ∨ (inplace = true ∧ output_dir ≠ none)) →
        renameCommand inplace output_dir days hours minutes pfx dry_run yes confirmed
          photos raises fs = (1, fs)) ∧
      (((inplace = true ∧ output_dir = none) ∨ (inplace = false ∧ output_dir ≠ none)) →
        (renameCommand inplace output_dir days hours minutes pfx dry_run yes confirmed
          photos raises fs).1 = 0) := by
  intro inplace output_dir days hours minutes pfx dry_run yes confirmed photos raises fs
  constructor
  · rintro (⟨hip, hod⟩ | ⟨hip, hod⟩)
    · subst hip
      subst hod
      simp [renameCommand]
    · subst hip
      obtain ⟨d, hd⟩ := Option.ne_none_iff_exists'.mp hod
      subst hd
      simp [renameCommand]
  · rintro (⟨hip, hod⟩ | ⟨hip, hod⟩)
    · subst hip
      subst hod
      simp only [renameCommand]
      norm_num
      split_ifs <;> rfl
    · subst hip
      obtain ⟨d, hd⟩ := Option.ne_none_iff_exists'.mp hod
      subst hd
      simp only [renameCommand]
      norm_num
      split_ifs <;> rfl

/-- C10 witness: both invalid combinations exit 1 without touching the
single existing file; a valid in-place run whose only transfer raises
still exits 0. -/
theorem rename_exit_code_semantics_witness :
    renameCommand false none 0 0 0 "entocamtest" false true true
      [(⟨[], "a.jpg"⟩, some 0)] [] [⟨[], "x.jpg"⟩] = (1, [⟨[], "x.jpg"⟩]) ∧
    renameCommand true (some ["out"]) 0 0 0 "entocamtest" false true true
      [(⟨[], "a.jpg"⟩, some 0)] [] [⟨[], "x.jpg"⟩] = (1, [⟨[], "x.jpg"⟩]) ∧
    (renameCommand true none 0 0 0 "entocamtest" false true true
      [(⟨[], "a.jpg"⟩, some 0)] [true] [⟨[], "x.jpg"⟩]).1 = 0 := by
  refine ⟨?_, ?_, ?_⟩
  · exact (rename_exit_code_semantics false none 0 0 0 "entocamtest" false true true
      [(⟨[], "a.jpg"⟩, some 0)] [] [⟨[], "x.jpg"⟩]).1 (Or.inl ⟨rfl, rfl⟩)
  · exact (rename_exit_code_semantics true (some ["out"]) 0 0 0 "entocamtest" false
      true true [(⟨[], "a.jpg"⟩, some 0)] [] [⟨[], "x.jpg"⟩]).1
      (Or.inr ⟨rfl, by simp⟩)
  · exact (rename_exit_code_semantics true none 0 0 0 "entocamtest" false true true
      [(⟨[], "a.jpg"⟩, some 0)] [true] [⟨[], "x.jpg"⟩]).2 (Or.inl ⟨rfl, rfl⟩)

/-- C1: evaluation of the shipped `process_images_for_sampling` at its own
test's scenario (`test_skip_existing_files_in_sampling`): two photos 15
minutes apart, 10 minute interval, destination already holding
`test1.jpg`.  The function has no destination parameter and no skipped
count: it returns both interval samples, `test1.jpg` included, while the
test requires `test1.jpg` excluded and a skipped count of 1 (calling it
with `output_dir=` raises `TypeError`). -/
theorem sampling_selection_ignores_destination :
    process_images_for_sampling 10
      [(⟨[], "test1.jpg"⟩, some (mkDT 2024 3 24 10 30 45)),
       (⟨[], "test2.jpg"⟩, some (mkDT 2024 3 24 10 45 45))] 10 0 0 0 =
      some [⟨⟨[], "test1.jpg"⟩, mkDT 2024 3 24 10 30 45, mkDT 2024 3 24 10 30 45⟩,
            ⟨⟨[], "test2.jpg"⟩, mkDT 2024 3 24 10 45 45, mkDT 2024 3 24 10 40 45⟩] ∧
    (⟨⟨[], "test1.jpg"⟩, mkDT 2024 3 24 10 30 45,
      mkDT 2024 3 24 10 30 45⟩ : Sample).original_path.name = "test1.jpg" := by
  constructor
  · decide
  · rfl

/-- C4 counterexample: a sampled photo named `DSCF0988.JPG` is copied by
`copy_sampled_files` to `snapshots/DSCF0988.JPG`, keeping its original
basename — not to the canonical `entocamtest-20250516143045.jpg` the
DestinationPlanner would produce for its timestamp. -/
theorem sampling_copy_keeps_original_basename_cex :
    (copy_sampled_files ["snapshots"] false
      [(⟨⟨["photos"], "DSCF0988.JPG"⟩, mkDT 2025 5 16 14 30 45,
          mkDT 2025 5 16 14 30 45⟩, false)] []).2 =
      [⟨["snapshots"], "DSCF0988.JPG"⟩] ∧
    (⟨["snapshots"], "DSCF0988.JPG"⟩ : PyPath).name ≠
      (generate_new_filepath ⟨["photos"], "DSCF0988.JPG"⟩ (mkDT 2025 5 16 14 30 45)
        "entocamtest" (some ["snapshots"])).name := by decide

/-- C4 amended: in sampling mode every file the copier creates keeps its
sample's original basename (`target_dir / original_path.name`); the
canonical `{prefix}-{timestamp}` naming of `generate_new_filepath` is used
only by the rename pipeline. -/
theorem copy_sampled_files_target_names (output_dir : List String) (preserve : Bool) :
    ∀ (samples : List (Sample × Bool)) (fs : List PyPath) (p : PyPath),
      p ∈ (copy_sampled_files output_dir preserve samples fs).2 →
      p ∈ fs ∨ ∃ se ∈ samples,
        p = sample_target_path output_dir preserve se.1.original_path ∧
        p.name = se.1.original_path.name := by
  intro samples
  induction samples with
  | nil =>
    intro fs p hp
    left
    simpa [copy_sampled_files] using hp
  | cons sb rest ih =>
    intro fs p hp
    obtain ⟨item, raises⟩ := sb
    simp only [copy_sampled_files] at hp
    split_ifs at hp with h1 h2
    · rcases ih fs p hp with hl | ⟨se, hse, he⟩
      · exact Or.inl hl
      · exact Or.inr ⟨se, List.mem_cons_of_mem _ hse, he⟩
    · rcases ih fs p hp with hl | ⟨se, hse, he⟩
      · exact Or.inl hl
      · exact Or.inr ⟨se, List.mem_cons_of_mem _ hse, he⟩
    · rcases ih _ p hp with hl | ⟨se, hse, he⟩
      · rcases List.mem_cons.mp hl with he2 | hm
        · refine Or.inr ⟨(item, raises), List.mem_cons_self _ _, he2, ?_⟩
          rw [he2]
          rfl
        · exact Or.inl hm
      · exact Or.inr ⟨se, List.mem_cons_of_mem _ hse, he⟩

/-- C4 amended witness: the copier's single created file in the concrete
run keeps the basename `DSCF0988.JPG`. -/
theorem copy_sampled_files_target_names_witness :
    (⟨["snapshots"], "DSCF0988.JPG"⟩ : PyPath) ∈ ([] : List PyPath) ∨
    ∃ se ∈ [((⟨⟨["photos"], "DSCF0988.JPG"⟩, mkDT 2025 5 16 14 30 45,
        mkDT 2025 5 16 14 30 45⟩ : Sample), false)],
      (⟨["snapshots"], "DSCF0988.JPG"⟩ : PyPath) =
        sample_target_path ["snapshots"] false se.1.original_path ∧
      (⟨["snapshots"], "DSCF0988.JPG"⟩ : PyPath).name = se.1.original_path.name := by
  exact copy_sampled_files_target_names ["snapshots"] false
    [(⟨⟨["photos"], "DSCF0988.JPG"⟩, mkDT 2025 5 16 14 30 45,
        mkDT 2025 5 16 14 30 45⟩, false)] [] ⟨["snapshots"], "DSCF0988.JPG"⟩
    (by decide)

end AmiCam
